import Mathlib

/-!
Shallow embedding of `src/pyspark/main.py` (corpus filtering, synonym-based
sentence augmentation, and the hyperparameter-search orchestration).

Modelling conventions:
* The external WordNet lexical database is a parameter `wn : WordNet`: for a
  word it returns the list of its synsets, each synset being the list of its
  lemma names (as Python's `lem.name()` returns them, underscores included).
* Randomness is passed in explicitly: `shuffle` stands for `random.shuffle`
  (any permutation), `choose` for `random.choice` (any element of the list),
  `draw` for `random.uniform(0, 1)` (any rational in `[0, 1)`, modelled over
  `ℚ`).
* Python's `str.split()` (split on whitespace runs, dropping empties) and the
  single-character `str.replace('_', ' ')` are defined structurally on the
  character list of the string so that they evaluate by `decide`.
* A Python dict appearing as a dataset example is an association list
  `List (String × String)`; `example['text']` is `List.lookup`.
-/

/-- The external lexical database: a word maps to its list of synsets, each
synset listed by the `lem.name()` strings of its lemmas. -/
def WordNet : Type := String → List (List String)

/-- Auxiliary for Python `str.split()`: walk the characters, cutting at each
whitespace character; `acc` holds the (reversed) characters of the current
chunk. Empty chunks are filtered out afterwards, matching Python. -/
def splitWsAux : List Char → List Char → List String
  | [], acc => [String.mk acc.reverse]
  | c :: cs, acc =>
      if c.isWhitespace then String.mk acc.reverse :: splitWsAux cs []
      else splitWsAux cs (c :: acc)

/-- Python `sentence.split()`: whitespace-delimited tokens, empties dropped. -/
def pySplit (s : String) : List String :=
  (splitWsAux s.data []).filter (fun t => !t.isEmpty)

/-- Python `lem.name().replace('_', ' ')`: every underscore becomes a space
(single-character replacement, hence a character map). -/
def replaceUnderscores (s : String) : String :=
  String.mk (s.data.map (fun c => if c = '_' then ' ' else c))

/-- Embedding of `get_synonyms` (main.py lines 12-29): collect every lemma
name over every synset of `word`, replace underscores by spaces, dedup (the
Python `set`), and remove the query word itself if present. -/
def get_synonyms (wn : WordNet) (word : String) : List String :=
  let synonyms := (((wn word).flatten).map replaceUnderscores).dedup
  if word ∈ synonyms then synonyms.erase word else synonyms

/-- Embedding of line 51 of main.py:
`new_words = [synonym if word == random_word else word for word in new_words]`. -/
def replaceAll (new_words : List String) (random_word synonym : String) :
    List String :=
  new_words.map (fun word => if word = random_word then synonym else word)

/-- Embedding of the `for random_word in random_word_list` loop of
`synonym_replacement` (main.py lines 46-54). Returns the final working copy
together with the final value of `num_replaced`. The `n ≤ num_replaced`
break test runs at the end of every iteration, after a possible replacement,
exactly as in the source. -/
def synRepLoop (wn : WordNet) (choose : String → List String → String)
    (n : ℕ) : List String → ℕ → List String → List String × ℕ
  | [], num_replaced, new_words => (new_words, num_replaced)
  | random_word :: rest, num_replaced, new_words =>
      let synonyms := get_synonyms wn random_word
      if 1 ≤ synonyms.length then
        let synonym := choose random_word synonyms
        let replaced := replaceAll new_words random_word synonym
        if n ≤ num_replaced + 1 then (replaced, num_replaced + 1)
        else synRepLoop wn choose n rest (num_replaced + 1) replaced
      else
        if n ≤ num_replaced then (new_words, num_replaced)
        else synRepLoop wn choose n rest num_replaced new_words

/-- Embedding of `synonym_replacement` (main.py lines 31-57): split the
sentence, build the candidate pool (distinct tokens having at least one
synset), shuffle it, run the replacement loop, and rejoin with single
spaces. -/
def synonym_replacement (wn : WordNet) (shuffle : List String → List String)
    (choose : String → List String → String) (sentence : String) (n : ℕ) :
    String :=
  let words := pySplit sentence
  let random_word_list :=
    shuffle ((words.filter (fun word => decide (wn word ≠ []))).dedup)
  String.intercalate (" ") (synRepLoop wn choose n random_word_list 0 words).1

/-- The number of replacements performed by a `synonym_replacement` call:
the final value of its `num_replaced` counter. -/
def replacedCount (wn : WordNet) (shuffle : List String → List String)
    (choose : String → List String → String) (sentence : String) (n : ℕ) :
    ℕ :=
  let words := pySplit sentence
  let random_word_list :=
    shuffle ((words.filter (fun word => decide (wn word ≠ []))).dedup)
  (synRepLoop wn choose n random_word_list 0 words).2

/-- Embedding of `augment_example` (main.py lines 59-72): draw gates the
augmentation by a strict `<` against `augment_rate`; the result is a dict
with the single key `text`. `example['text']` raises on a missing key, which
the embedding models by returning `none`. -/
def augment_example (wn : WordNet) (shuffle : List String → List String)
    (choose : String → List String → String) (draw : ℚ)
    (ex : List (String × String)) (augment_rate : ℚ) (n : ℕ) :
    Option (List (String × String)) :=
  (List.lookup ("text") ex).map (fun text =>
    [(("text"),
      if draw < augment_rate then synonym_replacement wn shuffle choose text n
      else text)])

/-- Embedding of the line loop of `filter_sentences_by_token_limit`
(main.py lines 79-93), with the external tokenizer as a parameter and the
output file as the returned list of written lines. -/
def filter_sentences_by_token_limit (tokenize : String → List String)
    (max_tokens : ℕ) : List String → List String
  | [] => []
  | line :: rest =>
      let tokens := tokenize line
      if tokens.length ≤ max_tokens then
        line :: filter_sentences_by_token_limit tokenize max_tokens rest
      else filter_sentences_by_token_limit tokenize max_tokens rest

/- Concrete instances used to evaluate the embedding on closed inputs. -/

/-- A tiny lexical database: `dog` has the single synset `{dog, hound}`;
every other word has no synset. -/
def wnHound : WordNet :=
  fun w => if w = ("dog") then [[("dog"), ("hound")]] else []

/-- A tiny lexical database: `cat` has the single synset `{cat, kitty}`;
every other word has no synset. -/
def wnCat : WordNet :=
  fun w => if w = ("cat") then [[("cat"), ("kitty")]] else []

/-- A tiny lexical database: `dog` has the single synset
`{dog, domestic_dog}`; the second lemma contains an underscore, which
`get_synonyms` turns into a space. -/
def wnDog2 : WordNet :=
  fun w => if w = ("dog") then [[("dog"), ("domestic_dog")]] else []

/-- A concrete resolution of `random.choice`: always pick the head of the
list (a legitimate choice whenever the list is non-empty). -/
def hdChoose : String → List String → String := fun _ l => l.headD ("")

/-- The head of a non-empty list (with any default) is a member of it, so
`hdChoose` is a legitimate resolution of `random.choice`. -/
lemma headD_mem : ∀ l : List String, l ≠ [] → l.headD ("") ∈ l := by
  intro l hl
  cases l with
  | nil => exact absurd rfl hl
  | cons a l => simp [List.headD]

/- Theorems for the Synonym Provider (claims C4 and C8). -/

/-- The query word never survives into its own synonym list: the collected
lemma list is deduplicated, so the single occurrence of the query word (when
present) is removed by `List.erase`. Shared helper behind claim C4. -/
lemma get_synonyms_self_not_mem (wn : WordNet) (word : String) :
    word ∉ get_synonyms wn word := by
  simp only [get_synonyms]
  split
  · exact (List.nodup_dedup _).not_mem_erase
  · assumption

/-- C4: for every word W and every lexical database, W is not a member of the
collection returned by `get_synonyms(W)`: the query word is removed from the
(deduplicated) synonym set whenever it is present. -/
theorem get_synonyms_not_mem_self (wn : WordNet) (word : String) :
    word ∉ get_synonyms wn word :=
  get_synonyms_self_not_mem wn word

/-- C8: a word with no synset in the lexical database yields the empty
synonym collection (and the function is total, so no error can be raised). -/
theorem get_synonyms_unknown_word (wn : WordNet) (word : String)
    (h : wn word = []) : get_synonyms wn word = [] := by
  simp [get_synonyms, h]

/-- Witness for C8 at a concrete database that knows no word at all. -/
theorem get_synonyms_unknown_word_witness :
    get_synonyms (fun _ => []) ("zebra") = [] :=
  get_synonyms_unknown_word (fun _ => []) ("zebra") rfl

/- Theorems for the Corpus Filter (claim C3). -/

/-- The line loop of `filter_sentences_by_token_limit` computes exactly a
filter of the input lines by the token-count predicate. -/
lemma filter_sentences_eq_filter (tokenize : String → List String)
    (max_tokens : ℕ) : ∀ lines : List String,
    filter_sentences_by_token_limit tokenize max_tokens lines =
      lines.filter (fun line => decide ((tokenize line).length ≤ max_tokens)) := by
  intro lines
  induction lines with
  | nil => rfl
  | cons line rest ih =>
    by_cases h : (tokenize line).length ≤ max_tokens
    · simp [filter_sentences_by_token_limit, List.filter_cons, h, ih]
    · simp [filter_sentences_by_token_limit, List.filter_cons, h, ih]

/-- C3: the Corpus Filter emits exactly those input lines whose tokenized
length is at most `max_tokens` (it equals a `List.filter`), the output is a
sublist of the input (kept lines are verbatim and in the input's relative
order), and a line of the input appears in the output exactly when its token
count does not exceed the limit (so every dropped line's token count exceeds
`max_tokens`). -/
theorem filter_sentences_by_token_limit_spec (tokenize : String → List String)
    (max_tokens : ℕ) (lines : List String) :
    filter_sentences_by_token_limit tokenize max_tokens lines =
      lines.filter (fun line => decide ((tokenize line).length ≤ max_tokens)) ∧
    List.Sublist (filter_sentences_by_token_limit tokenize max_tokens lines)
      lines ∧
    (∀ line, line ∈ filter_sentences_by_token_limit tokenize max_tokens lines ↔
      (line ∈ lines ∧ (tokenize line).length ≤ max_tokens)) := by
  refine ⟨filter_sentences_eq_filter tokenize max_tokens lines, ?_, ?_⟩
  · rw [filter_sentences_eq_filter]
    exact List.filter_sublist lines
  · intro line
    rw [filter_sentences_eq_filter]
    simp [List.mem_filter]

/- The replacement budget (claims C1 and C2). The break test
`num_replaced >= n` runs only after a candidate has been processed, so a
call with `n = 0` still replaces the first shuffled candidate that has a
non-empty synonym set. The loop respects the budget whenever `n ≥ 1`. -/

/-- When the loop is entered with `num_replaced` strictly below the budget,
the final counter never exceeds the budget. -/
lemma synRepLoop_snd_le (wn : WordNet) (choose : String → List String → String)
    (n : ℕ) : ∀ pool : List String, ∀ num : ℕ, ∀ cur : List String,
    num < n → (synRepLoop wn choose n pool num cur).2 ≤ n := by
  intro pool
  induction pool with
  | nil => intro num cur h; exact Nat.le_of_lt h
  | cons w rest ih =>
    intro num cur h
    simp only [synRepLoop]
    by_cases hs : 1 ≤ (get_synonyms wn w).length
    · rw [if_pos hs]
      by_cases hn : n ≤ num + 1
      · rw [if_pos hn]; exact h
      · rw [if_neg hn]; exact ih (num + 1) _ (Nat.lt_of_not_le hn)
    · rw [if_neg hs]
      by_cases hn : n ≤ num
      · rw [if_pos hn]; exact Nat.le_of_lt h
      · rw [if_neg hn]; exact ih num cur h

/-- For a budget of at least one, a `synonym_replacement` call performs at
most `n` replacements (the counter equals the number of distinct shuffled
candidates that were actually substituted). -/
theorem replacedCount_le_budget (wn : WordNet)
    (shuffle : List String → List String)
    (choose : String → List String → String) (sentence : String) (n : ℕ)
    (h : 1 ≤ n) :
    replacedCount wn shuffle choose sentence n ≤ n :=
  synRepLoop_snd_le wn choose n _ 0 _ h

/-- C1 fails at `n = 0`: with the database `wnHound` the sentence consisting
of the single word `dog` (so the candidate pool is the singleton `[dog]` and
every shuffle is the identity) is still augmented by a call with budget 0 —
the loop replaces the first candidate before testing the break condition, so
one replacement happens although the claim allows none. -/
theorem synonym_replacement_budget_zero_violation :
    synonym_replacement wnHound id hdChoose ("dog") 0 = ("hound") ∧
    replacedCount wnHound id hdChoose ("dog") 0 = 1 := by
  constructor
  · decide
  · decide

/-- C2 fails: with the database `wnCat`, `synonym_replacement` at budget 0 on
the sentence `the cat sat` (candidate pool: the singleton `[cat]`, so every
shuffle is the identity) returns `the kitty sat`, which differs from the
input tokens rejoined with single spaces. -/
theorem synonym_replacement_budget_zero_changes_tokens :
    synonym_replacement wnCat id hdChoose ("the cat sat") 0 =
      ("the kitty sat") ∧
    ("the kitty sat") ≠ ("the cat sat") := by
  constructor
  · decide
  · decide

/- Theorems for the replacement step (claim C5). -/

/-- Positionwise effect of line 51 of main.py: every occurrence of the
selected candidate in the working copy becomes the chosen synonym, and every
other position is untouched. -/
lemma replaceAll_getElem? (cur : List String) (w s : String) (i : ℕ)
    (v : String) (hv : cur[i]? = some v) :
    (replaceAll cur w s)[i]? = some (if v = w then s else v) := by
  simp [replaceAll, List.getElem?_map, hv]

/-- C5: when the loop selects a candidate whose synonym set is non-empty, it
replaces every occurrence of that candidate in the working copy, all with
the same single chosen synonym: the loop step rewrites the working copy to
`replaceAll`, under which a position holding the candidate becomes the
chosen synonym, any other position is unchanged, and no occurrence of the
candidate survives (the chosen synonym cannot equal the candidate, because
a word is never its own synonym). -/
theorem synonym_replacement_replaces_every_occurrence (wn : WordNet)
    (choose : String → List String → String) (n num : ℕ) (w : String)
    (rest cur : List String) (hsyn : get_synonyms wn w ≠ [])
    (hchoose : choose w (get_synonyms wn w) ∈ get_synonyms wn w) :
    synRepLoop wn choose n (w :: rest) num cur =
      (if n ≤ num + 1 then
        (replaceAll cur w (choose w (get_synonyms wn w)), num + 1)
       else synRepLoop wn choose n rest (num + 1)
        (replaceAll cur w (choose w (get_synonyms wn w)))) ∧
    (∀ i : ℕ, ∀ v, cur[i]? = some v →
      (replaceAll cur w (choose w (get_synonyms wn w)))[i]? =
        some (if v = w then choose w (get_synonyms wn w) else v)) ∧
    w ∉ replaceAll cur w (choose w (get_synonyms wn w)) := by
  refine ⟨?_, ?_, ?_⟩
  · simp only [synRepLoop]
    rw [if_pos (Nat.one_le_iff_ne_zero.mpr (by
      simpa [List.length_eq_zero] using hsyn))]
  · intro i v hv
    exact replaceAll_getElem? cur w _ i v hv
  · intro hmem
    rcases List.mem_map.mp hmem with ⟨a, _, heq⟩
    by_cases haw : a = w
    · rw [if_pos haw] at heq
      rw [heq] at hchoose
      exact get_synonyms_self_not_mem wn w hchoose
    · rw [if_neg haw] at heq
      exact haw heq

/-- Witness for C5: the hypotheses hold at the database `wnHound`, the
candidate `dog` and the working copy `[dog, x, dog]`, and the theorem there
yields that no occurrence of `dog` survives the replacement step. -/
theorem synonym_replacement_replaces_every_occurrence_witness :
    (get_synonyms wnHound ("dog") ≠ [] ∧
      hdChoose ("dog") (get_synonyms wnHound ("dog")) ∈
        get_synonyms wnHound ("dog")) ∧
    ("dog") ∉ replaceAll [("dog"), ("x"), ("dog")] ("dog")
      (hdChoose ("dog") (get_synonyms wnHound ("dog"))) :=
  ⟨⟨by decide, by decide⟩,
    (synonym_replacement_replaces_every_occurrence wnHound hdChoose 1 0
      ("dog") [] [("dog"), ("x"), ("dog")] (by decide) (by decide)).2.2⟩

/- Theorems for the Example Augmentation Gate (claims C6 and C10). -/

/-- C6: with `augment_rate = 0.0` the gate never fires: the draw from
`[0, 1)` is non-negative, the comparison against the rate is a strict `<`,
so `augment_example` passes the text through unchanged for every draw. -/
theorem augment_example_zero_rate (wn : WordNet)
    (shuffle : List String → List String)
    (choose : String → List String → String) (draw : ℚ)
    (ex : List (String × String)) (t : String) (n : ℕ) (hdraw : 0 ≤ draw)
    (hex : List.lookup ("text") ex = some t) :
    augment_example wn shuffle choose draw ex 0 n = some [(("text"), t)] := by
  simp [augment_example, hex, not_lt.mpr hdraw]

/-- Witness for C6: a concrete example with text `hello world`, a concrete
draw of `0`, and the empty lexical database. -/
theorem augment_example_zero_rate_witness :
    (0 : ℚ) ≤ 0 ∧
    augment_example (fun _ => []) id hdChoose 0
      [(("text"), ("hello world"))] 0 1 =
        some [(("text"), ("hello world"))] :=
  ⟨le_refl 0,
    augment_example_zero_rate (fun _ => []) id hdChoose 0
      [(("text"), ("hello world"))] ("hello world") 1 (le_refl 0) (by decide)⟩

/-- C10: whatever the draw and the rate, a successful `augment_example` call
returns a dict whose only key is `text`: any other key of the input example
is absent from the result. -/
theorem augment_example_only_text_key (wn : WordNet)
    (shuffle : List String → List String)
    (choose : String → List String → String) (draw rate : ℚ)
    (ex : List (String × String)) (n : ℕ) (d : List (String × String))
    (h : augment_example wn shuffle choose draw ex rate n = some d) :
    d.map Prod.fst = [("text")] ∧
    (∀ k, k ≠ ("text") → List.lookup k d = none) := by
  unfold augment_example at h
  cases hex : List.lookup ("text") ex with
  | none => rw [hex] at h; simp at h
  | some t =>
    rw [hex] at h
    simp only [Option.map_some'] at h
    have hd : d = [(("text"),
        if draw < rate then synonym_replacement wn shuffle choose t n
        else t)] := (Option.some_inj.mp h).symm
    constructor
    · rw [hd]; rfl
    · intro k hk
      have hkb : (k == ("text")) = false := beq_eq_false_iff_ne.mpr hk
      rw [hd]
      simp [List.lookup, hkb]

/-- Witness for C10: a concrete input example carrying an extra key `lang`;
the returned dict has only the key `text` and looks up `lang` to nothing. -/
theorem augment_example_only_text_key_witness :
    (augment_example (fun _ => []) id hdChoose 0
      [(("text"), ("hi")), (("lang"), ("en"))] 0 1 =
        some [(("text"), ("hi"))]) ∧
    ([(("text"), ("hi"))].map Prod.fst = [("text")] ∧
      (∀ k, k ≠ ("text") → List.lookup k [(("text"), ("hi"))] = none)) :=
  ⟨by decide,
    augment_example_only_text_key (fun _ => []) id hdChoose 0 0
      [(("text"), ("hi")), (("lang"), ("en"))] 1 [(("text"), ("hi"))]
      (by decide)⟩

/- Theorems for the shape of the augmented sentence (claim C9). -/

/-- Invariant of the replacement loop: the working copy keeps its length,
and every position holds either its previous value or a synonym of some
pool word (under any legitimate resolution of `random.choice`). -/
lemma synRepLoop_fst_invariant (wn : WordNet)
    (choose : String → List String → String) (P : String → Prop) (n : ℕ)
    (hchoose : ∀ w l, l ≠ [] → choose w l ∈ l) :
    ∀ pool : List String, ∀ num : ℕ, ∀ cur : List String,
    (∀ w, w ∈ pool → P w) →
    ((synRepLoop wn choose n pool num cur).1.length = cur.length ∧
     ∀ i : ℕ, ∀ v, (synRepLoop wn choose n pool num cur).1[i]? = some v →
       cur[i]? = some v ∨ ∃ w, P w ∧ v ∈ get_synonyms wn w) := by
  intro pool
  induction pool with
  | nil => intro num cur _; exact ⟨rfl, fun i v hv => Or.inl hv⟩
  | cons w rest ih =>
    intro num cur hpool
    have hPw : P w := hpool w (List.mem_cons_self w rest)
    have hrest : ∀ u, u ∈ rest → P u :=
      fun u hu => hpool u (List.mem_cons_of_mem w hu)
    simp only [synRepLoop]
    by_cases hs : 1 ≤ (get_synonyms wn w).length
    · rw [if_pos hs]
      have hne : get_synonyms wn w ≠ [] := List.ne_nil_of_length_pos hs
      have hmem := hchoose w _ hne
      have hstep : ∀ i : ℕ, ∀ v,
          (replaceAll cur w (choose w (get_synonyms wn w)))[i]? = some v →
          cur[i]? = some v ∨ ∃ u, P u ∧ v ∈ get_synonyms wn u := by
        intro i v hv
        simp only [replaceAll, List.getElem?_map] at hv
        cases hcur : cur[i]? with
        | none => rw [hcur] at hv; simp at hv
        | some v0 =>
          rw [hcur] at hv
          simp only [Option.map_some'] at hv
          have hv' := Option.some_inj.mp hv
          by_cases hvw : v0 = w
          · refine Or.inr ⟨w, hPw, ?_⟩
            rw [if_pos hvw] at hv'
            rw [← hv']
            exact hmem
          · rw [if_neg hvw] at hv'
            rw [← hv']
            exact Or.inl rfl
      have hlen : (replaceAll cur w (choose w (get_synonyms wn w))).length =
          cur.length := by simp [replaceAll]
      by_cases hn : n ≤ num + 1
      · rw [if_pos hn]
        exact ⟨hlen, hstep⟩
      · rw [if_neg hn]
        obtain ⟨ihlen, ihget⟩ :=
          ih (num + 1) (replaceAll cur w (choose w (get_synonyms wn w))) hrest
        refine ⟨ihlen.trans hlen, ?_⟩
        intro i v hv
        rcases ihget i v hv with h1 | h2
        · exact hstep i v h1
        · exact Or.inr h2
    · rw [if_neg hs]
      by_cases hn : n ≤ num
      · rw [if_pos hn]; exact ⟨rfl, fun i v hv => Or.inl hv⟩
      · rw [if_neg hn]; exact ih num cur hrest

/-- C9: the result of `synonym_replacement` is the single-space join of
exactly as many elements as the sentence has whitespace tokens; each element
is either the original token at that position or a synonym fetched for some
candidate token of the sentence; and (at a concrete database whose synonym
contains a space) re-splitting the output can yield strictly more tokens
than the input had. -/
theorem synonym_replacement_token_shape (wn : WordNet)
    (shuffle : List String → List String)
    (choose : String → List String → String) (sentence : String) (n : ℕ)
    (hshuffle : ∀ l : List String, List.Perm (shuffle l) l)
    (hchoose : ∀ w l, l ≠ [] → choose w l ∈ l) :
    ∃ final : List String,
      synonym_replacement wn shuffle choose sentence n =
        String.intercalate (" ") final ∧
      final.length = (pySplit sentence).length ∧
      (∀ i : ℕ, ∀ v, final[i]? = some v →
        (pySplit sentence)[i]? = some v ∨
        ∃ w, (w ∈ pySplit sentence ∧ wn w ≠ []) ∧ v ∈ get_synonyms wn w) ∧
      (pySplit (synonym_replacement wnDog2 id hdChoose ("dog") 1)).length >
        (pySplit ("dog")).length := by
  have hpool : ∀ w, w ∈ shuffle (((pySplit sentence).filter
      (fun word => decide (wn word ≠ []))).dedup) →
      w ∈ pySplit sentence ∧ wn w ≠ [] := by
    intro w hw
    have hw' := (hshuffle _).mem_iff.mp hw
    rw [List.mem_dedup, List.mem_filter] at hw'
    exact ⟨hw'.1, of_decide_eq_true hw'.2⟩
  obtain ⟨hlen, hget⟩ := synRepLoop_fst_invariant wn choose
    (fun w => w ∈ pySplit sentence ∧ wn w ≠ []) n hchoose
    (shuffle (((pySplit sentence).filter
      (fun word => decide (wn word ≠ []))).dedup)) 0 (pySplit sentence) hpool
  exact ⟨_, rfl, hlen, hget, by decide⟩

/-- Witness for C9: the theorem instantiated at the database `wnDog2`, the
identity shuffle and head choice, on the sentence `dog` with budget 1. -/
theorem synonym_replacement_token_shape_witness :
    ∃ final : List String,
      synonym_replacement wnDog2 id hdChoose ("dog") 1 =
        String.intercalate (" ") final ∧
      final.length = (pySplit ("dog")).length ∧
      (∀ i : ℕ, ∀ v, final[i]? = some v →
        (pySplit ("dog"))[i]? = some v ∨
        ∃ w, (w ∈ pySplit ("dog") ∧ wnDog2 w ≠ []) ∧
          v ∈ get_synonyms wnDog2 w) ∧
      (pySplit (synonym_replacement wnDog2 id hdChoose ("dog") 1)).length >
        (pySplit ("dog")).length :=
  synonym_replacement_token_shape wnDog2 id hdChoose ("dog") 1
    (fun l => List.Perm.refl l) (fun _ l hl => headD_mem l hl)

/- Model of the Hyperparameter Search Loop (claim C7). The selection logic
lives in the external optimizer; the log line and the artifact paths are
literal in main.py (lines 151, 160 and 163). -/

/-- Modelled from the spec: the record of one completed optimizer trial —
its number and the evaluation loss reported back to the optimizer (a float
in the source, modelled over `ℚ`). -/
structure TrialRecord where
  number : ℕ
  value : ℚ

/-- Modelled from the spec: the trials of a study run sequentially; trial
`i` (for `i` in `[0, n_trials)`) reports the loss `loss i`. -/
def runTrials (loss : ℕ → ℚ) (n_trials : ℕ) : List TrialRecord :=
  (List.range n_trials).map (fun i => ⟨i, loss i⟩)

/-- Modelled from the spec: `study.best_trial` of a study created with
direction `minimize` — the trial with minimum reported loss (the earliest
such trial on ties), as a fold over the remaining trials. -/
def bestTrialAux (t : TrialRecord) (ts : List TrialRecord) : TrialRecord :=
  ts.foldl (fun best u => if u.value < best.value then u else best) t

/-- Modelled from the spec: the best trial of the whole study; a study with
no trial has no best trial (the source always runs at least one), so the
empty case returns a dummy record. -/
def best_trial (loss : ℕ → ℚ) (n_trials : ℕ) : TrialRecord :=
  match runTrials loss n_trials with
  | [] => ⟨0, 0⟩
  | t :: ts => bestTrialAux t ts

/-- Embedding of main.py line 151: the path a trial's trained model is
persisted under. -/
def save_model_path (trial_number : ℕ) : String :=
  ("./best_model_trial_") ++ toString trial_number

/-- Embedding of main.py line 160: the log line printed for the best
trial. -/
def best_trial_log_line (t : TrialRecord) : String :=
  ("Best trial: ") ++ toString t.number ++ (" with loss ") ++ toString t.value

/-- Embedding of main.py line 163: the path the final artifact is reloaded
from. -/
def best_model_path (t : TrialRecord) : String :=
  ("./best_model_trial_") ++ toString t.number

/-- The fold computing `best_trial` returns one of the fold's inputs, and
its loss is a lower bound for the start value and for every fold input. -/
lemma bestTrialAux_spec : ∀ ts : List TrialRecord, ∀ t : TrialRecord,
    (bestTrialAux t ts = t ∨ bestTrialAux t ts ∈ ts) ∧
    (bestTrialAux t ts).value ≤ t.value ∧
    (∀ u, u ∈ ts → (bestTrialAux t ts).value ≤ u.value) := by
  intro ts
  induction ts with
  | nil =>
    intro t
    exact ⟨Or.inl rfl, le_refl _, fun u hu => absurd hu (List.not_mem_nil u)⟩
  | cons u rest ih =>
    intro t
    by_cases h : u.value < t.value
    · have he : bestTrialAux t (u :: rest) = bestTrialAux u rest := by
        simp [bestTrialAux, List.foldl, h]
      obtain ⟨hm, hle, hall⟩ := ih u
      rw [he]
      refine ⟨?_, ?_, ?_⟩
      · rcases hm with hm | hm
        · exact Or.inr (by rw [hm]; exact List.mem_cons_self u rest)
        · exact Or.inr (List.mem_cons_of_mem u hm)
      · exact hle.trans (le_of_lt h)
      · intro v hv
        rcases List.mem_cons.mp hv with hv | hv
        · rw [hv]; exact hle
        · exact hall v hv
    · have he : bestTrialAux t (u :: rest) = bestTrialAux t rest := by
        simp [bestTrialAux, List.foldl, h]
      obtain ⟨hm, hle, hall⟩ := ih t
      rw [he]
      refine ⟨?_, ?_, ?_⟩
      · rcases hm with hm | hm
        · exact Or.inl hm
        · exact Or.inr (List.mem_cons_of_mem u hm)
      · exact hle
      · intro v hv
        rcases List.mem_cons.mp hv with hv | hv
        · rw [hv]; exact hle.trans (not_lt.mp h)
        · exact hall v hv

/-- C7: after all trials complete, the selected trial is one of the study's
trials and its reported loss is minimal among all of them; the emitted log
line is `Best trial: <number> with loss <value>` for that trial; and the
path the final model is reloaded from is exactly the path that trial's
model was persisted under. -/
theorem best_trial_selection (loss : ℕ → ℚ) (n_trials : ℕ)
    (h : 1 ≤ n_trials) :
    best_trial loss n_trials ∈ runTrials loss n_trials ∧
    (∀ t, t ∈ runTrials loss n_trials →
      (best_trial loss n_trials).value ≤ t.value) ∧
    best_trial_log_line (best_trial loss n_trials) =
      ("Best trial: ") ++ toString (best_trial loss n_trials).number ++
        (" with loss ") ++ toString (best_trial loss n_trials).value ∧
    best_model_path (best_trial loss n_trials) =
      save_model_path (best_trial loss n_trials).number := by
  cases hrun : runTrials loss n_trials with
  | nil =>
    exfalso
    have hlen : (runTrials loss n_trials).length = n_trials := by
      simp [runTrials]
    rw [hrun] at hlen
    simp at hlen
    omega
  | cons t ts =>
    have hbt : best_trial loss n_trials = bestTrialAux t ts := by
      unfold best_trial
      rw [hrun]
    obtain ⟨hm, hle, hall⟩ := bestTrialAux_spec ts t
    refine ⟨?_, ?_, rfl, rfl⟩
    · rw [hbt]
      rcases hm with hm | hm
      · rw [hm]; exact List.mem_cons_self t ts
      · exact List.mem_cons_of_mem t hm
    · intro u hu
      rcases List.mem_cons.mp hu with hu | hu
      · rw [hbt, hu]; exact hle
      · rw [hbt]; exact hall u hu

/-- A concrete loss profile for three trials: losses 3, 1, 2. -/
def lossW : ℕ → ℚ := fun i => if i = 1 then 1 else if i = 2 then 2 else 3

/-- Witness for C7: at the concrete loss profile `3, 1, 2` over three
trials, the selected trial is trial 1 and its loss bounds every trial's
loss. -/
theorem best_trial_selection_witness :
    (1 ≤ 3) ∧ (best_trial lossW 3).number = 1 ∧
    (∀ t, t ∈ runTrials lossW 3 → (best_trial lossW 3).value ≤ t.value) :=
  ⟨by decide, by decide, (best_trial_selection lossW 3 (by decide)).2.1⟩
